import Mathlib

/-!
Shallow embedding of the LankeOS binary dependency resolver
(src/lpkg/main/scripts/gen_deps.py) and of the aggregated-index handling of
the repository manager (src/lpkg/main/scripts/lrepo-mgr.py).

Python strings are modelled as lists of characters (`Str`); Python dicts are
modelled as insertion-ordered association lists; the thread-pool run of
gen_deps.py is modelled sequentially in a fixed package order, with the
two-phase structure of `main` kept explicit (the `with` blocks join all
Phase 1 futures before any Phase 2 work is submitted).
-/

namespace LankeOS

/-- Strings of the embedded programs, modelled as lists of characters. -/
abbrev Str : Type := List Char

/-- Turn a Lean string literal into the `Str` model. -/
def strLit (s : String) : Str := s.data

/-! ### Python string primitives used by both scripts -/

/-- The characters Python `str.isspace()` — and hence argument-less
`str.strip()` — treats as whitespace: the ASCII spacing characters
including the file and record separators, next-line, no-break space, and
the Unicode space separators and line/paragraph separators. -/
def pyWsChars : Str :=
  ['\x09', '\x0a', '\x0b', '\x0c', '\x0d', '\x1c', '\x1d', '\x1e', '\x1f',
   ' ', '\x85', '\xa0', '\u1680', '\u2000', '\u2001', '\u2002', '\u2003',
   '\u2004', '\u2005', '\u2006', '\u2007', '\u2008', '\u2009', '\u200a',
   '\u2028', '\u2029', '\u202f', '\u205f', '\u3000']

/-- Python whitespace test: membership in the `str.isspace()` set. -/
def pyWs (c : Char) : Bool := pyWsChars.contains c

/-- Python `s.strip()`: drop leading and trailing whitespace. -/
def pyStrip (s : Str) : Str :=
  (((s.dropWhile pyWs).reverse).dropWhile pyWs).reverse

/-- The universal-newline translation a Python text-mode read applies
(`open(path, 'r')` with the default `newline=None`): every `\r\n` pair and
every lone `\r` in the stored bytes reaches the program as `\n`. -/
def univNewlines : Str → Str
  | [] => []
  | '\x0d' :: '\x0a' :: rest => '\x0a' :: univNewlines rest
  | '\x0d' :: rest => '\x0a' :: univNewlines rest
  | c :: rest => c :: univNewlines rest

/-- Python `s.split(c)` for a one-character separator: split at every
occurrence; the empty string yields `[[]]`, as in Python. -/
def splitOnChar (c : Char) : Str → List Str
  | [] => [[]]
  | a :: rest =>
    if a = c then [] :: splitOnChar c rest
    else
      match splitOnChar c rest with
      | [] => [[a]]
      | r :: rs => (a :: r) :: rs

/-- Python `s.split(c, 1)` when `c` occurs in `s`: the part before the first
occurrence and the part after it. -/
def splitFirst (c : Char) (s : Str) : Str × Str :=
  (s.takeWhile (· != c), (s.dropWhile (· != c)).drop 1)

/-- Python `sep.join(xs)` for a one-character separator. -/
def joinWithChar (c : Char) : List Str → Str
  | [] => []
  | [x] => x
  | x :: xs => x ++ c :: joinWithChar c xs

/-- Python `s.rsplit(c, 1)[0]` when `c` occurs in `s`: everything before the
last occurrence of `c`. -/
def beforeLast (c : Char) (s : Str) : Str :=
  (((s.reverse).dropWhile (· != c)).drop 1).reverse

/-- Python `s.rsplit(c, 1)[1]` when `c` occurs in `s`: everything after the
last occurrence of `c`. -/
def afterLast (c : Char) (s : Str) : Str :=
  ((s.reverse).takeWhile (· != c)).reverse

/-- Python `s.rsplit(c, 1)[0]` with no occurrence guard: the whole string
when `c` does not occur. -/
def rsplitBefore (c : Char) (s : Str) : Str :=
  if s.contains c then beforeLast c s else s

/-- Does `pat` occur as a contiguous substring of `s` (Python `pat in s`)? -/
def containsSub (pat s : Str) : Bool :=
  s.tails.any (fun t => pat.isPrefixOf t)

/-! ### gen_deps.py: package names -/

/-- The characters of the `.lpkg` extension. -/
def lpkgExt : Str := ['.', 'l', 'p', 'k', 'g']

/-- Python `s.replace(".lpkg", "")`: delete every (non-overlapping, leftmost
first) occurrence of `.lpkg`, as in gen_deps.py lines 35 and 70. -/
def stripLpkg : Str → Str
  | '.' :: 'l' :: 'p' :: 'k' :: 'g' :: rest => stripLpkg rest
  | c :: rest => c :: stripLpkg rest
  | [] => []

/-- Package-name derivation of gen_deps.py (process_phase1 lines 35-39,
process_phase2 lines 70-74): delete every `.lpkg` occurrence, then take
everything before the last hyphen when the remainder contains one. -/
def genDepsPkgName (lpkg : Str) : Str :=
  let raw := stripLpkg lpkg
  if raw.contains '-' then beforeLast '-' raw else raw

/-- lrepo-mgr.py `parse_pkg_filename` (lines 43-53): `None` unless the
filename ends in `.lpkg` and the stem (before the last dot) contains a
hyphen; otherwise the (name, version) split at the stem's last hyphen. -/
def parse_pkg_filename (filename : Str) : Option (Str × Str) :=
  if lpkgExt.isSuffixOf filename then
    let base := rsplitBefore '.' filename
    if base.contains '-' then
      some (beforeLast '-' base, afterLast '-' base)
    else none
  else none

/-! ### gen_deps.py: data model -/

/-- An ELF object found under a package's `content/` tree: its base filename
and the SONAME and NEEDED lists that gen_deps.py lines 14-27 read off it via
readelf (modelled as data of the object). -/
structure ElfObj where
  fname : Str
  sonames : List Str
  needed : List Str
deriving DecidableEq

/-- A package as gen_deps.py sees it: its archive filename, the ELF objects
under `content/`, and the files at the extract root (`deps.txt`,
optionally `provides.txt`, ...) as an association list path → content. -/
structure Package where
  lpkg : Str
  elves : List ElfObj
  rootFiles : List (Str × Str)
deriving DecidableEq

/-- The name of the dependency file. -/
def depsTxtName : Str := strLit "deps.txt"

/-- The name of the provides file. -/
def providesTxtName : Str := strLit "provides.txt"

/-! ### gen_deps.py: Phase 1, the provider index -/

/-- The provider index: an insertion-ordered association list from library
identifier (SONAME or fallback filename) to providing package name,
modelling the Python dict `provider_map`. -/
abbrev PMap := List (Str × Str)

/-- main lines 144-146: insert one `(key, package)` registration, keeping an
already-present key unchanged (first-writer-wins). -/
def pmInsert (m : PMap) (k v : Str) : PMap :=
  match List.lookup k m with
  | some _ => m
  | none => m ++ [(k, v)]

/-- Fold a stream of registrations into the provider map, first-writer-wins
(main's Phase 1 collection loop, lines 143-146). -/
def buildProviderMap (regs : List (Str × Str)) : PMap :=
  regs.foldl (fun m kv => pmInsert m kv.1 kv.2) []

/-- The substring `.so` used for the fallback registration test. -/
def soPat : Str := ['.', 's', 'o']

/-- process_phase1 lines 53-62: the registrations one ELF object contributes
for package `name`: one per declared SONAME, plus the base filename when it
contains `.so`. -/
def elfRegistrations (name : Str) (e : ElfObj) : List (Str × Str) :=
  e.sonames.map (fun sn => (sn, name)) ++
    (if containsSub soPat e.fname then [(e.fname, name)] else [])

/-- process_phase1 (lines 29-63): all registrations one package contributes,
keyed by its derived package name. -/
def phase1Registrations (p : Package) : List (Str × Str) :=
  ((p.elves).map (elfRegistrations (genDepsPkgName p.lpkg))).flatten

/-- main lines 136-148: the provider map of one run, all packages' Phase 1
registrations folded first-writer-wins (the embedding fixes the package
order; the real run consumes futures in completion order). -/
def mainProviderMap (pkgs : List Package) : PMap :=
  buildProviderMap ((pkgs.map phase1Registrations).flatten)

/-! ### gen_deps.py: Phase 2, dependency resolution -/

/-- Python `set.add`: append only if not already present. -/
def setAdd (s : List Str) (x : Str) : List Str :=
  if s.contains x then s else s ++ [x]

/-- process_phase2 lines 84-88: account one NEEDED entry `n` into the needs
set: resolve it through the provider map, drop it when absent, drop the
package's own name. -/
def needStep (name : Str) (pm : PMap) (acc : List Str) (n : Str) : List Str :=
  match List.lookup n pm with
  | some depPkg => if depPkg ≠ name then setAdd acc depPkg else acc
  | none => acc

/-- process_phase2 lines 79-88: the needs set collected over every NEEDED
entry of every ELF object of the package. -/
def collectNeeds (name : Str) (pm : PMap) (elves : List ElfObj) : List Str :=
  elves.foldl (fun acc e => e.needed.foldl (needStep name pm) acc) []

/-- process_phase2 line 92: `final_deps = sorted(list(needs))`, the
lexicographically sorted dependency list. -/
def finalDeps (name : Str) (pm : PMap) (elves : List ElfObj) : List Str :=
  List.insertionSort (fun a b => a ≤ b) (collectNeeds name pm elves)

/-- The sorted dependency list process_phase2 computes for one package. -/
def process_phase2_deps (p : Package) (pm : PMap) : List Str :=
  finalDeps (genDepsPkgName p.lpkg) pm p.elves

/-- process_phase2 lines 96-98: the `deps.txt` content written for a
dependency list, one name per line, each followed by a newline. -/
def depsContent (deps : List Str) : Str :=
  (deps.map (fun d => d ++ ['\n'])).flatten

/-! ### gen_deps.py: the deps.txt rewrite on the extract tree -/

/-- `sudo rm -f path` on the extract-root file list: drop every entry at
`path` (process_phase2 line 100). -/
def treeRemove (t : List (Str × Str)) (path : Str) : List (Str × Str) :=
  t.filter (fun e => e.1 != path)

/-- `sudo cp temp path` creating `path` afresh with the temp file's full
content (process_phase2 line 101). -/
def treeWrite (t : List (Str × Str)) (path content : Str) : List (Str × Str) :=
  treeRemove t path ++ [(path, content)]

/-- The effect of process_phase2 lines 100-101 on the extract root: remove
the old `deps.txt`, then create it with the freshly generated content. -/
def rewriteDepsFile (t : List (Str × Str)) (newContent : Str) : List (Str × Str) :=
  treeWrite (treeRemove t depsTxtName) depsTxtName newContent

/-- One package after its Phase 2 unit: `deps.txt` rewritten from the
resolved dependency list, everything else untouched. -/
def process_phase2_pkg (pm : PMap) (p : Package) : Package :=
  { p with rootFiles := rewriteDepsFile p.rootFiles (depsContent (process_phase2_deps p pm)) }

/-- One full run of gen_deps.py over a package set: build the provider map
(Phase 1), then rewrite every package's `deps.txt` against it (Phase 2). -/
def runResolver (pkgs : List Package) : List Package :=
  pkgs.map (process_phase2_pkg (mainProviderMap pkgs))

/-- The `deps.txt` content of a package, as a reader of the finished archive
sees it. -/
def depsTxtOf (p : Package) : Option Str :=
  List.lookup depsTxtName p.rootFiles

/-! ### gen_deps.py: the Phase 1 / Phase 2 event trace of main -/

/-- Observable events of one run of `main`: a provider registration arriving
in the Phase 1 collection loop (the only mutation of the provider index),
and the start of one package's Phase 2 resolution. -/
inductive Event where
  | register (key pkg : Str)
  | resolve (lpkg : Str)
deriving DecidableEq

/-- Is this event a Phase 1 registration? -/
def Event.isRegister : Event → Bool
  | .register _ _ => true
  | .resolve _ => false

/-- The Phase 1 part of the trace: every package's registrations, in the
order main's first executor block consumes them. -/
def phase1Events (pkgs : List Package) : List Event :=
  ((pkgs.map phase1Registrations).flatten).map (fun kv => Event.register kv.1 kv.2)

/-- The Phase 2 part of the trace: one resolution start per package, emitted
by main's second executor block. -/
def phase2Events (pkgs : List Package) : List Event :=
  pkgs.map (fun p => Event.resolve p.lpkg)

/-- The event trace of `main` (lines 139-161): the first `with` block joins
every Phase 1 future before the second block submits any Phase 2 work, so
the trace is the Phase 1 events followed by the Phase 2 events. -/
def mainTrace (pkgs : List Package) : List Event :=
  phase1Events pkgs ++ phase2Events pkgs

/-- The provider index evolving along the trace: registrations insert
first-writer-wins, resolution events leave it untouched. -/
def indexStep (m : PMap) : Event → PMap
  | .register k v => pmInsert m k v
  | .resolve _ => m

/-- The provider index after a prefix of the trace has executed. -/
def indexAfter (es : List Event) : PMap :=
  es.foldl indexStep []

/-! ### gen_deps.py: the file operations of process_phase2 -/

/-- File-system operations process_phase2 issues (lines 95-109). `write`
creates a file with its full content in one step, `remove` is `rm -f`,
`copy` is `cp` (a fresh content copy, not a rename), `chownRoot` is the
ownership normalization, `pack` creates the archive from the extract
directory, and `rename` is `mv` (atomic replacement). -/
inductive FsOp where
  | write (path content : Str)
  | remove (path : Str)
  | copy (src dst : Str)
  | chownRoot (path : Str)
  | pack (dir dst : Str)
  | rename (src dst : Str)
deriving DecidableEq

/-- Join two path components with a slash. -/
def pathJoin (a b : Str) : Str := a ++ '/' :: b

/-- The directories main hands to process_phase2. -/
structure Dirs where
  targetDir : Str
  extractRoot : Str
  workingDir : Str
deriving DecidableEq

/-- The extract directory of a package. -/
def extractDirOf (d : Dirs) (p : Package) : Str := pathJoin d.extractRoot p.lpkg

/-- The on-disk `deps.txt` path of a package's extract tree. -/
def depsPathOf (d : Dirs) (p : Package) : Str :=
  pathJoin (extractDirOf d p) depsTxtName

/-- The temporary dependency file path (line 95). -/
def tempDepsOf (d : Dirs) (p : Package) : Str :=
  pathJoin d.workingDir (strLit "deps_gen_" ++ p.lpkg ++ strLit ".txt")

/-- The package archive path. -/
def pkgPathOf (d : Dirs) (p : Package) : Str := pathJoin d.targetDir p.lpkg

/-- The temporary repack path (line 107). -/
def repackPathOf (d : Dirs) (p : Package) : Str :=
  pkgPathOf d p ++ strLit ".repacked"

/-- The file operations process_phase2 issues for one package, in program
order (lines 96-109): write the full new content to a temporary file,
delete the old `deps.txt`, copy the temporary file onto the `deps.txt`
path, normalize ownership, pack the archive to a temporary path, and
atomically rename it over the original archive. -/
def process_phase2_ops (d : Dirs) (pm : PMap) (p : Package) : List FsOp :=
  [ FsOp.write (tempDepsOf d p) (depsContent (process_phase2_deps p pm)),
    FsOp.remove (depsPathOf d p),
    FsOp.copy (tempDepsOf d p) (depsPathOf d p),
    FsOp.chownRoot (extractDirOf d p),
    FsOp.pack (extractDirOf d p) (repackPathOf d p),
    FsOp.rename (repackPathOf d p) (pkgPathOf d p) ]

/-- Does this operation atomically rename some file onto `dst`? -/
def FsOp.renamesTo (dst : Str) : FsOp → Bool
  | .rename _ d => d == dst
  | _ => false

/-- A file-system state: the content at each path, if the path exists. -/
def FsState := Str → Option Str

/-- Executing one operation against a file-system state. `pack` materializes
the archive of the extract directory at `dst` (content abstracted as the
directory path). -/
def FsOp.apply (fs : FsState) : FsOp → FsState
  | .write p c => fun q => if q = p then some c else fs q
  | .remove p => fun q => if q = p then none else fs q
  | .copy s d => fun q => if q = d then fs s else fs q
  | .chownRoot _ => fs
  | .pack dir dst => fun q => if q = dst then some dir else fs q
  | .rename s d => fun q => if q = d then fs s else if q = s then none else fs q

/-- Executing a list of operations in order. -/
def applyOps (ops : List FsOp) (fs : FsState) : FsState :=
  ops.foldl FsOp.apply fs

/-! ### lrepo-mgr.py: the aggregated index -/

/-- The per-package record of the aggregated index: the insertion-ordered
version → hash dict, and the deps and provides strings. -/
structure PkgInfo where
  versions : List (Str × Str)
  deps : Str
  provides : Str
deriving DecidableEq

/-- The aggregated index: an insertion-ordered dict name → record. -/
abbrev Index := List (Str × PkgInfo)

/-- Python `d[k] = v` on an insertion-ordered dict: replace the value in
place when the key is present, append otherwise. -/
def dictSet {β : Type} (d : List (Str × β)) (k : Str) (v : β) : List (Str × β) :=
  match List.lookup k d with
  | some _ => d.map (fun e => if e.1 = k then (k, v) else e)
  | none => d ++ [(k, v)]

/-- parse_aggregated_index lines 227-231: fold the `v1:h1,v2:h2` fragments
into the versions dict, skipping fragments without a colon. -/
def parseVersions (vparts : List Str) : List (Str × Str) :=
  vparts.foldl
    (fun acc vh =>
      if vh.contains ':' then
        dictSet acc (splitFirst ':' vh).1 (splitFirst ':' vh).2
      else acc) []

/-- parse_aggregated_index lines 216-232: process one line of the index
file: strip it, skip blank and `#` lines and lines with fewer than two
`|`-fields, otherwise record name, versions, deps and provides. -/
def parseLine (d : Index) (line : Str) : Index :=
  let s := pyStrip line
  if s = [] then d
  else if s.head? = some '#' then d
  else
    let parts := splitOnChar '|' s
    if parts.length < 2 then d
    else
      dictSet d (parts.getD 0 [])
        { versions := parseVersions (splitOnChar ',' (parts.getD 1 []))
          deps := parts.getD 2 []
          provides := parts.getD 3 [] }

/-- lrepo-mgr.py parse_aggregated_index (lines 211-233) on a stored file
content: the text-mode read first applies the universal-newline
translation, then `for line in f` iterates the `\n`-separated lines. -/
def parse_aggregated_index (content : Str) : Index :=
  (splitOnChar '\n' (univNewlines content)).foldl parseLine []

/-- One `v:h` fragment of a written index line (line 238). -/
def versionEntryStr (vh : Str × Str) : Str := vh.1 ++ ':' :: vh.2

/-- One line of the written index: `name|v1:h1,...|deps|provides` plus the
trailing newline (line 240). -/
def indexLine (name : Str) (info : PkgInfo) : Str :=
  name ++ '|' :: joinWithChar ',' (info.versions.map versionEntryStr) ++
    '|' :: info.deps ++ '|' :: info.provides ++ ['\n']

/-- lrepo-mgr.py write_aggregated_index (lines 235-240). -/
def write_aggregated_index (data : Index) : Str :=
  (data.map (fun e => indexLine e.1 e.2)).flatten

/-- The body of a written index line, without its trailing newline. -/
def indexLineBody (name : Str) (info : PkgInfo) : Str :=
  name ++ '|' :: (joinWithChar ',' (info.versions.map versionEntryStr) ++
    '|' :: (info.deps ++ '|' :: info.provides))

/-- Side conditions on one `version ↦ hash` entry under which the written
`v:h` fragment parses back unchanged: no `|`, newline or carriage return
anywhere, no comma in either part, and no colon in the version. -/
abbrev goodVersionEntry (vh : Str × Str) : Prop :=
  ('|' ∉ vh.1 ∧ '\n' ∉ vh.1 ∧ '\x0d' ∉ vh.1 ∧ ',' ∉ vh.1 ∧ ':' ∉ vh.1) ∧
  ('|' ∉ vh.2 ∧ '\n' ∉ vh.2 ∧ '\x0d' ∉ vh.2 ∧ ',' ∉ vh.2)

/-- Side conditions on one index record under which its written line parses
back unchanged: the field separator and both line-breaking characters
(newline and carriage return, which the text-mode read also treats as a
line break) absent from every field, a name that does not start with `#` or
Python whitespace, a provides string that does not end in Python
whitespace, version keys distinct, and at least one version. -/
abbrev goodIndexEntry (e : Str × PkgInfo) : Prop :=
  ('|' ∉ e.1 ∧ '\n' ∉ e.1 ∧ '\x0d' ∉ e.1 ∧ e.1.head? ≠ some '#' ∧
    e.1.head?.all (fun c => !(pyWs c)) = true) ∧
  (e.2.versions ≠ [] ∧ (e.2.versions.map Prod.fst).Nodup ∧
    ∀ vh ∈ e.2.versions, goodVersionEntry vh) ∧
  ('|' ∉ e.2.deps ∧ '\n' ∉ e.2.deps ∧ '\x0d' ∉ e.2.deps) ∧
  ('|' ∉ e.2.provides ∧ '\n' ∉ e.2.provides ∧ '\x0d' ∉ e.2.provides ∧
    e.2.provides.getLast?.all (fun c => !(pyWs c)) = true)

/-- The name derivation as the claim words it (for comparison with the
code): strip the extension to get the filename stem, then take everything
before the last hyphen in the stem, or the whole stem when it has no
hyphen. -/
def specPkgNameOfStem (stem : Str) : Str :=
  if stem.contains '-' then beforeLast '-' stem else stem

/-! ### Concrete fixtures used to instantiate the theorems -/

/-- A package providing `libfoo.so.1`, with a stale `deps.txt`. -/
def fooPkg : Package :=
  { lpkg := strLit "foo-1.0.lpkg"
    elves := [{ fname := strLit "libfoo.so.1"
                sonames := [strLit "libfoo.so.1"]
                needed := [] }]
    rootFiles := [(depsTxtName, strLit "stale")] }

/-- A package needing `libfoo.so.1`, with no metadata files yet. -/
def barPkg : Package :=
  { lpkg := strLit "bar-2.0.lpkg"
    elves := [{ fname := strLit "app"
                sonames := []
                needed := [strLit "libfoo.so.1"] }]
    rootFiles := [] }

/-- A package whose only ELF object both declares and needs its own SONAME. -/
def selfPkg : Package :=
  { lpkg := strLit "self-1.0.lpkg"
    elves := [{ fname := strLit "libself.so"
                sonames := [strLit "libself.so.1"]
                needed := [strLit "libself.so.1"] }]
    rootFiles := [] }

/-- A package with no ELF objects at all. -/
def emptyPkg : Package :=
  { lpkg := strLit "empty-1.0.lpkg", elves := [], rootFiles := [] }

/-- Concrete directories for the file-operation theorems. -/
def someDirs : Dirs :=
  { targetDir := strLit "/pkgs"
    extractRoot := strLit "/tmp/work/extract"
    workingDir := strLit "/tmp/work" }

/-- A well-behaved one-package aggregated index. -/
def goodIdx : Index :=
  [(strLit "foo",
    { versions := [(strLit "1.0", strLit "abc123")]
      deps := strLit "bar,baz"
      provides := strLit "libfoo.so.1" })]

/-- An index that satisfies the round-trip claim's stated side conditions
but whose deps string contains a newline. -/
def newlineIdx : Index :=
  [(strLit "a",
    { versions := [(strLit "1", strLit "h")]
      deps := strLit "x" ++ '\n' :: strLit "y"
      provides := [] })]

/-- The side conditions of the round-trip claim as stated: at least one
version, and no `|` in any field, no `,` in versions or hashes, no `:` in
versions, no leading `#` on names. -/
def claimedRoundTripOk (data : Index) : Bool :=
  data.all (fun e =>
    (!e.1.contains '|') && !(e.1.head? = some '#') &&
    (!e.2.deps.contains '|') && (!e.2.provides.contains '|') &&
    (!e.2.versions.isEmpty) &&
    e.2.versions.all (fun vh =>
      (!vh.1.contains '|') && (!vh.1.contains ',') && (!vh.1.contains ':') &&
      (!vh.2.contains '|') && (!vh.2.contains ',')))

/-! ## Helper lemmas: association-list lookups -/

theorem lookup_append_some {β : Type} {m : List (Str × β)} {k : Str} {v : β}
    (rest : List (Str × β)) (h : List.lookup k m = some v) :
    List.lookup k (m ++ rest) = some v := by
  induction m with
  | nil => simp [List.lookup] at h
  | cons e m ih =>
    obtain ⟨a, b⟩ := e
    rw [List.cons_append]
    cases hk : (k == a) with
    | true =>
      rw [List.lookup_cons, hk] at h
      rw [List.lookup_cons, hk]
      exact h
    | false =>
      rw [List.lookup_cons, hk] at h
      rw [List.lookup_cons, hk]
      exact ih h

theorem lookup_pmInsert_some {m : PMap} {k v : Str} (k2 v2 : Str)
    (h : List.lookup k m = some v) : List.lookup k (pmInsert m k2 v2) = some v := by
  unfold pmInsert
  cases List.lookup k2 m with
  | some w => exact h
  | none => exact lookup_append_some _ h

theorem lookup_foldl_pmInsert (more : List (Str × Str)) :
    ∀ (m : PMap) (k v : Str), List.lookup k m = some v →
      List.lookup k (more.foldl (fun m kv => pmInsert m kv.1 kv.2) m) = some v := by
  induction more with
  | nil => intro m k v h; simpa using h
  | cons kv more ih =>
    intro m k v h
    simp only [List.foldl_cons]
    exact ih _ _ _ (lookup_pmInsert_some _ _ h)

theorem lookup_treeRemove_append (t : List (Str × Str)) (path : Str)
    (rest : List (Str × Str)) :
    List.lookup path (treeRemove t path ++ rest) = List.lookup path rest := by
  induction t with
  | nil => simp [treeRemove]
  | cons e t ih =>
    obtain ⟨a, b⟩ := e
    by_cases ha : a = path
    · simp [treeRemove, ha] at ih ⊢; exact ih
    · have : (a != path) = true := by simpa using ha
      simp only [treeRemove, List.filter_cons, this] at ih ⊢
      have hpa : (path == a) = false := by simpa using Ne.symm ha
      simp [List.lookup, hpa]
      exact ih

theorem lookup_rewriteDepsFile (t : List (Str × Str)) (c : Str) :
    List.lookup depsTxtName (rewriteDepsFile t c) = some c := by
  unfold rewriteDepsFile treeWrite
  rw [lookup_treeRemove_append]
  simp [List.lookup]

/-! ## Helper lemmas: the needs set of Phase 2 -/

theorem mem_setAdd {s : List Str} {x y : Str} (h : y ∈ setAdd s x) :
    y ∈ s ∨ y = x := by
  unfold setAdd at h
  split at h
  · exact Or.inl h
  · rcases List.mem_append.mp h with h1 | h1
    · exact Or.inl h1
    · simp at h1; exact Or.inr h1

theorem nodup_setAdd {s : List Str} (x : Str) (h : s.Nodup) :
    (setAdd s x).Nodup := by
  unfold setAdd
  split
  · exact h
  · next hc =>
    refine List.Nodup.append h (by simp) ?_
    intro a ha hb
    simp at hb
    subst hb
    exact absurd (List.elem_iff.mpr ha) (by simpa using hc)

theorem needStep_of_lookup_none {name : Str} {pm : PMap} {n : Str}
    (acc : List Str) (h : List.lookup n pm = none) :
    needStep name pm acc n = acc := by
  unfold needStep
  rw [h]

theorem mem_needStep {name : Str} {pm : PMap} {acc : List Str} {n y : Str}
    (h : y ∈ needStep name pm acc n) :
    y ∈ acc ∨ (List.lookup n pm = some y ∧ y ≠ name) := by
  unfold needStep at h
  cases hl : List.lookup n pm with
  | none => rw [hl] at h; exact Or.inl h
  | some d =>
    rw [hl] at h
    have h2 : y ∈ if d ≠ name then setAdd acc d else acc := h
    by_cases hd : d ≠ name
    · rw [if_pos hd] at h2
      rcases mem_setAdd h2 with h1 | h1
      · exact Or.inl h1
      · subst h1; exact Or.inr ⟨rfl, hd⟩
    · rw [if_neg hd] at h2; exact Or.inl h2

theorem nodup_needStep {name : Str} {pm : PMap} {acc : List Str} (n : Str)
    (h : acc.Nodup) : (needStep name pm acc n).Nodup := by
  unfold needStep
  cases List.lookup n pm with
  | none => exact h
  | some d =>
    show (if d ≠ name then setAdd acc d else acc).Nodup
    split
    · exact nodup_setAdd _ h
    · exact h

theorem mem_foldl_needStep {name : Str} {pm : PMap} (ns : List Str) :
    ∀ (acc : List Str) (y : Str), y ∈ ns.foldl (needStep name pm) acc →
      y ∈ acc ∨ ∃ n ∈ ns, List.lookup n pm = some y ∧ y ≠ name := by
  induction ns with
  | nil => intro acc y h; exact Or.inl (by simpa using h)
  | cons n ns ih =>
    intro acc y h
    simp only [List.foldl_cons] at h
    rcases ih _ _ h with h1 | ⟨m, hm, hl⟩
    · rcases mem_needStep h1 with h2 | h2
      · exact Or.inl h2
      · exact Or.inr ⟨n, by simp, h2⟩
    · exact Or.inr ⟨m, by simp [hm], hl⟩

theorem nodup_foldl_needStep {name : Str} {pm : PMap} (ns : List Str) :
    ∀ (acc : List Str), acc.Nodup → (ns.foldl (needStep name pm) acc).Nodup := by
  induction ns with
  | nil => intro acc h; simpa using h
  | cons n ns ih =>
    intro acc h
    simp only [List.foldl_cons]
    exact ih _ (nodup_needStep _ h)

theorem mem_foldl_elves {name : Str} {pm : PMap} (elves : List ElfObj) :
    ∀ (acc : List Str) (y : Str),
      y ∈ elves.foldl (fun acc e => e.needed.foldl (needStep name pm) acc) acc →
      y ∈ acc ∨ ((∃ e ∈ elves, ∃ n ∈ e.needed, List.lookup n pm = some y) ∧ y ≠ name) := by
  induction elves with
  | nil => intro acc y h; exact Or.inl (by simpa using h)
  | cons e elves ih =>
    intro acc y h
    simp only [List.foldl_cons] at h
    rcases ih _ _ h with h1 | ⟨⟨e2, he2, hn⟩, hy⟩
    · rcases mem_foldl_needStep _ _ _ h1 with h2 | ⟨n, hn, hl, hy⟩
      · exact Or.inl h2
      · exact Or.inr ⟨⟨e, by simp, n, hn, hl⟩, hy⟩
    · exact Or.inr ⟨⟨e2, by simp [he2], hn⟩, hy⟩

theorem mem_collectNeeds {name : Str} {pm : PMap} {elves : List ElfObj} {y : Str}
    (h : y ∈ collectNeeds name pm elves) :
    (∃ e ∈ elves, ∃ n ∈ e.needed, List.lookup n pm = some y) ∧ y ≠ name := by
  rcases mem_foldl_elves elves [] y h with h1 | h1
  · simp at h1
  · exact h1

theorem nodup_collectNeeds (name : Str) (pm : PMap) (elves : List ElfObj) :
    (collectNeeds name pm elves).Nodup := by
  unfold collectNeeds
  have : ∀ (acc : List Str), acc.Nodup →
      (elves.foldl (fun acc e => e.needed.foldl (needStep name pm) acc) acc).Nodup := by
    induction elves with
    | nil => intro acc h; simpa using h
    | cons e elves ih =>
      intro acc h
      simp only [List.foldl_cons]
      exact ih _ (nodup_foldl_needStep _ _ h)
  exact this [] (by simp)

theorem mem_finalDeps_iff (name : Str) (pm : PMap) (elves : List ElfObj) (y : Str) :
    y ∈ finalDeps name pm elves ↔ y ∈ collectNeeds name pm elves :=
  (List.perm_insertionSort _ _).mem_iff

/-! ## C1 -/

/-- C1: for every package and every provider map — in particular the one in
which the package's own ELF objects registered their SONAMEs — the
package's own derived name is never an element of the resolved dependency
list that Phase 2 writes to deps.txt (process_phase2 line 87 filters it). -/
theorem self_name_never_in_own_deps (p : Package) (pm : PMap) :
    (process_phase2_deps p pm).contains (genDepsPkgName p.lpkg) = false := by
  rw [Bool.eq_false_iff]
  intro hc
  have hmem : genDepsPkgName p.lpkg ∈ process_phase2_deps p pm := List.elem_iff.mp hc
  have hmem2 := (mem_finalDeps_iff _ _ _ _).mp hmem
  exact (mem_collectNeeds hmem2).2 rfl

/-! ## C2 -/

/-- C2: the provider index is insertion-only with first-writer-wins
semantics: once a registration stream has recorded provider `v` for key
`k`, folding any further registrations into the index leaves `k` resolving
to `v` (main lines 144-146 insert only absent keys); every Phase 2 consumer
of the run then reads that same final index. -/
theorem provider_index_first_writer_wins (regs more : List (Str × Str)) (k v : Str)
    (h : List.lookup k (buildProviderMap regs) = some v) :
    List.lookup k (buildProviderMap (regs ++ more)) = some v := by
  unfold buildProviderMap at h ⊢
  rw [List.foldl_append]
  exact lookup_foldl_pmInsert more _ _ _ h

/-- Witness for C2: key `libx.so.1` first registered by package `a` still
resolves to `a` after a conflicting registration by package `b`. -/
theorem provider_index_first_writer_wins_witness :
    List.lookup (strLit "libx.so.1")
      (buildProviderMap [(strLit "libx.so.1", strLit "a")]) = some (strLit "a") ∧
    List.lookup (strLit "libx.so.1")
      (buildProviderMap ([(strLit "libx.so.1", strLit "a")] ++
        [(strLit "libx.so.1", strLit "b")])) = some (strLit "a") :=
  ⟨by decide, provider_index_first_writer_wins _ _ _ _ (by decide)⟩

/-! ## C3 -/

/-- C3: the dependency list Phase 2 computes is lexicographically sorted and
duplicate-free; the deps.txt content written for it is that list one name
per line and is the same whatever the prior deps.txt content was (the
rewrite is an unconditional regeneration, not a merge); a package with no
ELF objects gets the empty list. -/
theorem deps_txt_sorted_nodup_overwritten (p : Package) (pm : PMap) :
    List.Sorted (fun a b => a ≤ b) (process_phase2_deps p pm) ∧
    (process_phase2_deps p pm).Nodup ∧
    (∀ old : List (Str × Str),
      depsTxtOf (process_phase2_pkg pm { p with rootFiles := old }) =
        some (depsContent (process_phase2_deps p pm))) ∧
    (p.elves = [] → process_phase2_deps p pm = []) := by
  refine ⟨List.sorted_insertionSort _ _,
    (List.perm_insertionSort _ _).nodup_iff.mpr (nodup_collectNeeds _ _ _), ?_, ?_⟩
  · intro old
    exact lookup_rewriteDepsFile _ _
  · intro h
    unfold process_phase2_deps finalDeps collectNeeds
    rw [h]
    rfl

/-- Witness for C3: the package with no ELF objects gets the empty list, and
a stale deps.txt is overwritten with the freshly generated (empty) content. -/
theorem deps_txt_sorted_nodup_overwritten_witness :
    depsTxtOf (process_phase2_pkg []
        { emptyPkg with rootFiles := [(depsTxtName, strLit "stale")] }) =
      some (depsContent (process_phase2_deps emptyPkg [])) ∧
    process_phase2_deps emptyPkg [] = [] :=
  ⟨(deps_txt_sorted_nodup_overwritten emptyPkg []).2.2.1 [(depsTxtName, strLit "stale")],
   (deps_txt_sorted_nodup_overwritten emptyPkg []).2.2.2 rfl⟩

/-! ## C4 -/

/-- C4: a NEEDED entry with no key in the provider index is dropped: the
resolved list is the same with or without it, the remaining entries of the
package are still processed (the embedding is a total function, so no error
or abort is possible), and every name in the resolved list originates from
some NEEDED entry that does have a provider. -/
theorem unresolved_needed_dropped (name : Str) (pm : PMap) (e₁ e₂ : List ElfObj)
    (f : Str) (sns pre post : List Str) (n : Str)
    (h : List.lookup n pm = none) :
    finalDeps name pm
        (e₁ ++ { fname := f, sonames := sns, needed := pre ++ n :: post } :: e₂) =
      finalDeps name pm
        (e₁ ++ { fname := f, sonames := sns, needed := pre ++ post } :: e₂) ∧
    ∀ d ∈ finalDeps name pm
        (e₁ ++ { fname := f, sonames := sns, needed := pre ++ n :: post } :: e₂),
      ∃ e ∈ e₁ ++ { fname := f, sonames := sns, needed := pre ++ n :: post } :: e₂,
        ∃ m ∈ e.needed, List.lookup m pm = some d := by
  constructor
  · suffices hcoll :
        collectNeeds name pm
            (e₁ ++ { fname := f, sonames := sns, needed := pre ++ n :: post } :: e₂) =
          collectNeeds name pm
            (e₁ ++ { fname := f, sonames := sns, needed := pre ++ post } :: e₂) by
      unfold finalDeps
      rw [hcoll]
    unfold collectNeeds
    rw [List.foldl_append, List.foldl_append, List.foldl_cons, List.foldl_cons]
    have hstep :
        List.foldl (needStep name pm)
            (List.foldl (fun acc e => List.foldl (needStep name pm) acc e.needed) [] e₁)
            (pre ++ n :: post) =
          List.foldl (needStep name pm)
            (List.foldl (fun acc e => List.foldl (needStep name pm) acc e.needed) [] e₁)
            (pre ++ post) := by
      rw [List.foldl_append, List.foldl_append, List.foldl_cons,
        needStep_of_lookup_none _ h]
    exact congrArg
      (fun acc => List.foldl (fun acc e => List.foldl (needStep name pm) acc e.needed) acc e₂)
      hstep
  · intro d hd
    exact (mem_collectNeeds ((mem_finalDeps_iff _ _ _ _).mp hd)).1

/-- Witness for C4: with only `libfoo.so.1` in the index, the unresolvable
entry `libmissing.so` contributes nothing to the resolved list. -/
theorem unresolved_needed_dropped_witness :
    List.lookup (strLit "libmissing.so") [(strLit "libfoo.so.1", strLit "foo")] = none ∧
    finalDeps (strLit "bar") [(strLit "libfoo.so.1", strLit "foo")]
        ([] ++ { fname := strLit "app", sonames := [],
                 needed := [] ++ strLit "libmissing.so" :: [strLit "libfoo.so.1"] } :: []) =
      finalDeps (strLit "bar") [(strLit "libfoo.so.1", strLit "foo")]
        ([] ++ { fname := strLit "app", sonames := [],
                 needed := [] ++ [strLit "libfoo.so.1"] } :: []) :=
  ⟨by decide,
   (unresolved_needed_dropped (strLit "bar") [(strLit "libfoo.so.1", strLit "foo")]
      [] [] (strLit "app") [] [] [strLit "libfoo.so.1"] (strLit "libmissing.so")
      (by decide)).1⟩

/-! ## C5 -/

/-- C5: resolution is idempotent: a second full two-phase run over the
output of a first run produces the same deps.txt content for every package,
because Phase 2 only rewrites deps.txt and neither the name derivation nor
the ELF scan reads it. -/
theorem resolver_idempotent (pkgs : List Package) :
    (runResolver (runResolver pkgs)).map depsTxtOf =
      (runResolver pkgs).map depsTxtOf := by
  have hpm : mainProviderMap (runResolver pkgs) = mainProviderMap pkgs := by
    unfold mainProviderMap runResolver
    rw [List.map_map]
    rfl
  show ((runResolver pkgs).map
      (process_phase2_pkg (mainProviderMap (runResolver pkgs)))).map depsTxtOf = _
  rw [hpm]
  show ((pkgs.map (process_phase2_pkg (mainProviderMap pkgs))).map
      (process_phase2_pkg (mainProviderMap pkgs))).map depsTxtOf =
    (pkgs.map (process_phase2_pkg (mainProviderMap pkgs))).map depsTxtOf
  rw [List.map_map, List.map_map, List.map_map]
  apply List.map_congr_left
  intro p _
  show List.lookup depsTxtName
      (rewriteDepsFile
        (rewriteDepsFile p.rootFiles
          (depsContent (process_phase2_deps p (mainProviderMap pkgs))))
        (depsContent (process_phase2_deps
          (process_phase2_pkg (mainProviderMap pkgs) p) (mainProviderMap pkgs)))) =
    List.lookup depsTxtName
      (rewriteDepsFile p.rootFiles
        (depsContent (process_phase2_deps p (mainProviderMap pkgs))))
  rw [lookup_rewriteDepsFile, lookup_rewriteDepsFile]
  rfl

/-! ## Helper lemmas: the main trace -/

theorem isRegister_of_mem_phase1Events {pkgs : List Package} {e : Event}
    (h : e ∈ phase1Events pkgs) : e.isRegister = true := by
  unfold phase1Events at h
  rcases List.mem_map.mp h with ⟨kv, _, hkv⟩
  rw [← hkv]
  rfl

theorem isRegister_of_mem_phase2Events {pkgs : List Package} {e : Event}
    (h : e ∈ phase2Events pkgs) : e.isRegister = false := by
  unfold phase2Events at h
  rcases List.mem_map.mp h with ⟨p, _, hp⟩
  rw [← hp]
  rfl

theorem indexAfter_resolve_only (es : List Event)
    (h : ∀ e ∈ es, e.isRegister = false) :
    ∀ m : PMap, es.foldl indexStep m = m := by
  induction es with
  | nil => intro m; rfl
  | cons e es ih =>
    intro m
    rw [List.foldl_cons]
    have he : e.isRegister = false := h e (by simp)
    have hstep : indexStep m e = m := by
      cases e with
      | register k v => simp [Event.isRegister] at he
      | resolve l => rfl
    rw [hstep]
    exact ih (fun e2 h2 => h e2 (by simp [h2])) m

theorem indexAfter_phase1Events (pkgs : List Package) :
    indexAfter (phase1Events pkgs) = mainProviderMap pkgs := by
  unfold indexAfter phase1Events mainProviderMap buildProviderMap
  rw [List.foldl_map]
  rfl

/-! ## C6 -/

/-- C6: phase ordering is a hard barrier. In the trace of `main`, every
Phase 1 event (a provider registration, the only mutation of the index)
strictly precedes every Phase 2 event (a package resolution), and from the
moment all Phase 1 events have executed — in particular at every point
after any Phase 2 event has started — the index equals the final provider
map and never changes again. -/
theorem phase1_phase2_hard_barrier (pkgs : List Package) :
    (∀ (i j : Nat) (hi : i < (mainTrace pkgs).length)
       (hj : j < (mainTrace pkgs).length),
       ((mainTrace pkgs)[i]).isRegister = true →
       ((mainTrace pkgs)[j]).isRegister = false → i < j) ∧
    (∀ k, (phase1Events pkgs).length ≤ k →
       indexAfter ((mainTrace pkgs).take k) = mainProviderMap pkgs) := by
  constructor
  · intro i j hi hj hreg hres
    have hA : i < (phase1Events pkgs).length := by
      by_contra hge
      push_neg at hge
      have hi2 : i - (phase1Events pkgs).length < (phase2Events pkgs).length := by
        have hlen := hi
        unfold mainTrace at hlen
        rw [List.length_append] at hlen
        omega
      have heq : (mainTrace pkgs)[i] =
          (phase2Events pkgs)[i - (phase1Events pkgs).length] := by
        unfold mainTrace
        exact List.getElem_append_right hge
      rw [heq] at hreg
      have hf := isRegister_of_mem_phase2Events
        (List.getElem_mem (l := phase2Events pkgs) hi2)
      rw [hreg] at hf
      simp at hf
    have hB : (phase1Events pkgs).length ≤ j := by
      by_contra hlt
      push_neg at hlt
      have heq : (mainTrace pkgs)[j] = (phase1Events pkgs)[j] := by
        unfold mainTrace
        exact List.getElem_append_left hlt
      rw [heq] at hres
      have ht := isRegister_of_mem_phase1Events
        (List.getElem_mem (l := phase1Events pkgs) hlt)
      rw [hres] at ht
      simp at ht
    omega
  · intro k hk
    unfold mainTrace
    rw [List.take_append_eq_append_take, List.take_of_length_le hk, indexAfter,
      List.foldl_append]
    have hres : ∀ e ∈ (phase2Events pkgs).take (k - (phase1Events pkgs).length),
        e.isRegister = false := fun e he =>
      isRegister_of_mem_phase2Events (List.take_subset _ _ he)
    rw [indexAfter_resolve_only _ hres]
    exact indexAfter_phase1Events pkgs

/-- Witness for C6: on the two-package set, the first registration event
precedes the first resolution event, and the index is already final once
the two Phase 1 events have executed. -/
theorem phase1_phase2_hard_barrier_witness :
    (0 : Nat) < 2 ∧
    indexAfter ((mainTrace [fooPkg, barPkg]).take 2) =
      mainProviderMap [fooPkg, barPkg] :=
  ⟨(phase1_phase2_hard_barrier [fooPkg, barPkg]).1 0 2 (by decide) (by decide)
      (by decide) (by decide),
   (phase1_phase2_hard_barrier [fooPkg, barPkg]).2 2 (by decide)⟩

/-! ## Helper lemmas: splitting and joining on a separator character -/

theorem splitOnChar_ne_nil (c : Char) (s : Str) : splitOnChar c s ≠ [] := by
  induction s with
  | nil => simp [splitOnChar]
  | cons a rest ih =>
    unfold splitOnChar
    split
    · simp
    · cases h : splitOnChar c rest with
      | nil => simp
      | cons r rs => simp

theorem splitOnChar_not_mem {c : Char} {a : Str} (ha : c ∉ a) :
    splitOnChar c a = [a] := by
  induction a with
  | nil => rfl
  | cons x rest ih =>
    have hx : x ≠ c := by
      intro h
      exact ha (by simp [h])
    have hrest : c ∉ rest := fun h => ha (by simp [h])
    unfold splitOnChar
    rw [if_neg hx, ih hrest]

theorem splitOnChar_append {c : Char} {a : Str} (b : Str) (ha : c ∉ a) :
    splitOnChar c (a ++ c :: b) = a :: splitOnChar c b := by
  induction a with
  | nil =>
    show splitOnChar c (c :: b) = [] :: splitOnChar c b
    conv_lhs => rw [splitOnChar]
    rw [if_pos rfl]
  | cons x rest ih =>
    have hx : x ≠ c := by
      intro h
      exact ha (by simp [h])
    have hrest : c ∉ rest := fun h => ha (by simp [h])
    show splitOnChar c (x :: (rest ++ c :: b)) = (x :: rest) :: splitOnChar c b
    conv_lhs => rw [splitOnChar]
    rw [if_neg hx, ih hrest]

theorem splitOnChar_flatten_lines {c : Char} (lines : List Str)
    (h : ∀ l ∈ lines, c ∉ l) :
    splitOnChar c ((lines.map (fun l => l ++ [c])).flatten) = lines ++ [[]] := by
  induction lines with
  | nil => rfl
  | cons l ls ih =>
    have hl : c ∉ l := h l (by simp)
    have hls : ∀ x ∈ ls, c ∉ x := fun x hx => h x (by simp [hx])
    simp only [List.map_cons, List.flatten_cons, List.append_assoc, List.cons_append,
      List.nil_append]
    rw [splitOnChar_append _ hl, ih hls]

/-! ## Helper lemmas: lookups around the deps.txt rewrite -/

theorem lookup_treeRemove_ne (t : List (Str × Str)) (path k : Str) (hk : k ≠ path) :
    List.lookup k (treeRemove t path) = List.lookup k t := by
  induction t with
  | nil => rfl
  | cons e t ih =>
    obtain ⟨a, b⟩ := e
    unfold treeRemove at ih ⊢
    by_cases ha : a = path
    · rw [List.filter_cons_of_neg (by simp [ha])]
      have hka : (k == a) = false := by simp [ha, hk]
      rw [List.lookup_cons, hka]
      exact ih
    · rw [List.filter_cons_of_pos (by simp [ha])]
      rw [List.lookup_cons, List.lookup_cons]
      cases hka : (k == a) with
      | true => rfl
      | false => exact ih

theorem lookup_append_singleton_ne (l : List (Str × Str)) (d c k : Str)
    (hk : k ≠ d) : List.lookup k (l ++ [(d, c)]) = List.lookup k l := by
  induction l with
  | nil =>
    have hkd : (k == d) = false := by simp [hk]
    simp [List.lookup, hkd]
  | cons e l ih =>
    obtain ⟨a, b⟩ := e
    rw [List.cons_append, List.lookup_cons, List.lookup_cons]
    cases hka : (k == a) with
    | true => rfl
    | false => exact ih

theorem lookup_rewriteDepsFile_ne (t : List (Str × Str)) (c : Str) (k : Str)
    (hk : k ≠ depsTxtName) :
    List.lookup k (rewriteDepsFile t c) = List.lookup k t := by
  unfold rewriteDepsFile treeWrite
  rw [lookup_append_singleton_ne _ _ _ _ hk, lookup_treeRemove_ne _ _ _ hk,
    lookup_treeRemove_ne _ _ _ hk]

/-! ## C7 -/

/-- C7 counterexample: at a concrete package, directory layout and provider
map, no operation issued by process_phase2 renames anything onto the
package's deps.txt path — the claimed write-temp-then-rename discipline for
deps.txt does not exist in the code (lines 100-101 use rm + cp; only the
archive itself is replaced by a rename, line 109). -/
theorem deps_txt_rename_counterexample :
    (process_phase2_ops someDirs [] fooPkg).any
      (FsOp.renamesTo (depsPathOf someDirs fooPkg)) = false := by decide

/-- C7 (amended): the full new deps.txt content is written in one operation
to a separate temporary file, but the installation is a delete followed by
a copy, not a move/rename: after the delete and before the copy the
deps.txt path is absent, so a reader can observe a deps.txt-less state; the
copy then installs the full content (given the archive-repack paths are
distinct from the deps.txt path), and no rename ever targets deps.txt. -/
theorem deps_txt_temp_write_then_copy (d : Dirs) (pm : PMap) (p : Package)
    (fs : FsState)
    (htmp : tempDepsOf d p ≠ depsPathOf d p)
    (hpack : repackPathOf d p ≠ depsPathOf d p)
    (hpkg : pkgPathOf d p ≠ depsPathOf d p) :
    applyOps ((process_phase2_ops d pm p).take 1) fs (tempDepsOf d p) =
      some (depsContent (process_phase2_deps p pm)) ∧
    applyOps ((process_phase2_ops d pm p).take 2) fs (depsPathOf d p) = none ∧
    applyOps (process_phase2_ops d pm p) fs (depsPathOf d p) =
      some (depsContent (process_phase2_deps p pm)) ∧
    (process_phase2_ops d pm p).any (FsOp.renamesTo (depsPathOf d p)) = false := by
  have h1 : depsPathOf d p ≠ tempDepsOf d p := Ne.symm htmp
  have h2 : depsPathOf d p ≠ repackPathOf d p := Ne.symm hpack
  have h3 : depsPathOf d p ≠ pkgPathOf d p := Ne.symm hpkg
  refine ⟨?_, ?_, ?_, ?_⟩ <;>
    simp [applyOps, process_phase2_ops, FsOp.apply, FsOp.renamesTo,
      h1, h2, h3, htmp, hpack, hpkg]

/-- Witness for C7's amended statement at a concrete package and layout:
after the first two operations deps.txt is absent, and after all six it
holds the full generated content. -/
theorem deps_txt_temp_write_then_copy_witness :
    applyOps ((process_phase2_ops someDirs [] barPkg).take 2) (fun _ => none)
      (depsPathOf someDirs barPkg) = none ∧
    applyOps (process_phase2_ops someDirs [] barPkg) (fun _ => none)
      (depsPathOf someDirs barPkg) =
      some (depsContent (process_phase2_deps barPkg [])) :=
  ⟨(deps_txt_temp_write_then_copy someDirs [] barPkg (fun _ => none)
      (by decide) (by decide) (by decide)).2.1,
   (deps_txt_temp_write_then_copy someDirs [] barPkg (fun _ => none)
      (by decide) (by decide) (by decide)).2.2.1⟩

/-! ## C8 -/

/-- C8 counterexample: a package whose extract tree has no provides.txt
still has none after its Phase 2 unit — the resolver does not create
provides.txt, so the claim that the finished archive always contains both
files is false. -/
theorem provides_txt_counterexample :
    List.lookup providesTxtName
      (process_phase2_pkg (mainProviderMap [barPkg]) barPkg).rootFiles = none := by
  decide

/-- C8 (amended): after Phase 2 the package always contains a deps.txt
(even if empty) holding exactly the resolved names one per line, and
provides.txt is preserved exactly as it was — present afterwards iff it was
present before; the resolver never creates it. -/
theorem deps_txt_exists_provides_preserved (p : Package) (pm : PMap) :
    depsTxtOf (process_phase2_pkg pm p) =
      some (depsContent (process_phase2_deps p pm)) ∧
    ((∀ x ∈ process_phase2_deps p pm, '\n' ∉ x) →
      splitOnChar '\n' (depsContent (process_phase2_deps p pm)) =
        process_phase2_deps p pm ++ [[]]) ∧
    List.lookup providesTxtName (process_phase2_pkg pm p).rootFiles =
      List.lookup providesTxtName p.rootFiles := by
  refine ⟨lookup_rewriteDepsFile _ _, ?_, ?_⟩
  · intro hnl
    exact splitOnChar_flatten_lines _ hnl
  · exact lookup_rewriteDepsFile_ne _ _ _ (by decide)

/-- Witness for C8's amended statement: the foo package's rewritten tree
has a deps.txt with the generated content, its one line per name splits
back into the dependency list, and the absent provides.txt stays absent. -/
theorem deps_txt_exists_provides_preserved_witness :
    depsTxtOf (process_phase2_pkg (mainProviderMap [fooPkg, barPkg]) barPkg) =
      some (depsContent (process_phase2_deps barPkg (mainProviderMap [fooPkg, barPkg]))) ∧
    splitOnChar '\n'
        (depsContent (process_phase2_deps barPkg (mainProviderMap [fooPkg, barPkg]))) =
      process_phase2_deps barPkg (mainProviderMap [fooPkg, barPkg]) ++ [[]] :=
  ⟨(deps_txt_exists_provides_preserved barPkg (mainProviderMap [fooPkg, barPkg])).1,
   (deps_txt_exists_provides_preserved barPkg (mainProviderMap [fooPkg, barPkg])).2.1
      (by decide)⟩

/-! ## Helper lemmas: package-name derivation -/

theorem infix_of_infix_tail {l rest : Str} (x : Char) (h : l <:+: rest) :
    l <:+: x :: rest := by
  obtain ⟨s, t, hst⟩ := h
  exact ⟨x :: s, t, by rw [← hst]; rfl⟩

theorem stripLpkg_append_ext : ∀ (stem : Str), ¬ (lpkgExt <:+: stem) →
    stripLpkg (stem ++ lpkgExt) = stem := by
  intro stem
  induction stem with
  | nil => intro _; rfl
  | cons x rest ih =>
    intro h
    have hrest : ¬ (lpkgExt <:+: rest) := fun hc => h (infix_of_infix_tail x hc)
    rw [List.cons_append, stripLpkg.eq_def]
    split
    · next r3 heq =>
      exfalso
      rcases rest with _ | ⟨a, _ | ⟨b, _ | ⟨c2, _ | ⟨d, r5⟩⟩⟩⟩ <;>
        simp only [List.cons_append, List.nil_append, List.cons.injEq, lpkgExt] at heq
      · exact absurd heq.2.1 (by decide)
      · exact absurd heq.2.2.1 (by decide)
      · exact absurd heq.2.2.2.1 (by decide)
      · exact absurd heq.2.2.2.2.1 (by decide)
      · obtain ⟨hx, ha, hb, hc, hd, hr⟩ := heq
        subst hx; subst ha; subst hb; subst hc; subst hd
        exact h ⟨[], r5, rfl⟩
    · next s c2 r4 hnot heq =>
      injection heq with hc hr
      subst hc
      subst hr
      rw [ih hrest]
    · next s heq => exact absurd heq (by simp)

theorem beforeLast_dot_append_ext (stem : Str) :
    beforeLast '.' (stem ++ lpkgExt) = stem := by
  unfold beforeLast
  rw [List.reverse_append]
  have h1 : (lpkgExt : Str).reverse = ['g', 'k', 'p', 'l', '.'] := by decide
  rw [h1]
  simp [List.dropWhile_cons]

theorem contains_dot_append_ext (stem : Str) :
    (stem ++ lpkgExt).contains '.' = true :=
  List.elem_iff.mpr (List.mem_append.mpr (Or.inr (by decide)))

theorem isSuffixOf_append_ext (stem : Str) :
    lpkgExt.isSuffixOf (stem ++ lpkgExt) = true := by
  rw [List.isSuffixOf_iff_suffix]
  exact List.suffix_append stem lpkgExt

/-! ## C9 -/

/-- C9 counterexample: the two tools do not derive the name by stripping
the extension and cutting at the stem's last hyphen in general. For
`a.lpkg-1.0.lpkg` the stem is `a.lpkg-1.0`, so the claimed derivation (and
lrepo-mgr's parse_pkg_filename) gives `a.lpkg`, but gen_deps.py deletes
every `.lpkg` occurrence first and gives `a`; and for the hyphen-less
`x.lpkg` gen_deps.py derives `x` while parse_pkg_filename derives no name
at all. -/
theorem pkg_name_derivation_counterexample :
    genDepsPkgName (strLit "a.lpkg-1.0.lpkg") = strLit "a" ∧
    specPkgNameOfStem (strLit "a.lpkg-1.0") = strLit "a.lpkg" ∧
    parse_pkg_filename (strLit "a.lpkg-1.0.lpkg") =
      some (strLit "a.lpkg", strLit "1.0") ∧
    genDepsPkgName (strLit "x.lpkg") = strLit "x" ∧
    parse_pkg_filename (strLit "x.lpkg") = none := by decide

/-- C9 (amended): for a filename `stem ++ ".lpkg"` in which `.lpkg` occurs
only as the final extension and whose stem contains a hyphen, gen_deps.py's
derived name is everything before the stem's last hyphen, it agrees with
the claimed stem-based derivation, and lrepo-mgr's parse_pkg_filename
derives the same name (with the remainder as version). -/
theorem pkg_name_derivation_agreement (stem : Str)
    (hext : ¬ (lpkgExt <:+: stem))
    (hdash : stem.contains '-' = true) :
    genDepsPkgName (stem ++ lpkgExt) = beforeLast '-' stem ∧
    genDepsPkgName (stem ++ lpkgExt) = specPkgNameOfStem stem ∧
    parse_pkg_filename (stem ++ lpkgExt) =
      some (genDepsPkgName (stem ++ lpkgExt), afterLast '-' stem) := by
  have hname : genDepsPkgName (stem ++ lpkgExt) = beforeLast '-' stem := by
    unfold genDepsPkgName
    rw [stripLpkg_append_ext stem hext]
    show (if stem.contains '-' = true then beforeLast '-' stem else stem) =
      beforeLast '-' stem
    rw [hdash]
    rfl
  refine ⟨hname, ?_, ?_⟩
  · rw [hname]
    unfold specPkgNameOfStem
    rw [hdash]
    rfl
  · unfold parse_pkg_filename rsplitBefore
    simp [isSuffixOf_append_ext, beforeLast_dot_append_ext, hname,
      show ('.' : Char) ∈ lpkgExt from by decide, List.elem_iff.mp hdash]

/-- Witness for C9's amended statement at `foo-1.0.lpkg`: both tools derive
the name `foo`. -/
theorem pkg_name_derivation_agreement_witness :
    genDepsPkgName (strLit "foo-1.0" ++ lpkgExt) = strLit "foo" ∧
    parse_pkg_filename (strLit "foo-1.0" ++ lpkgExt) =
      some (genDepsPkgName (strLit "foo-1.0" ++ lpkgExt), strLit "1.0") :=
  ⟨by rw [(pkg_name_derivation_agreement (strLit "foo-1.0") (by decide) (by decide)).1]
      decide,
   by rw [(pkg_name_derivation_agreement (strLit "foo-1.0") (by decide) (by decide)).2.2]
      decide⟩

/-! ## Helper lemmas: the aggregated-index round trip -/

theorem dropWhile_eq_self_of_head (s : Str)
    (h : s.head?.all (fun c => !(pyWs c)) = true) : s.dropWhile pyWs = s := by
  cases s with
  | nil => rfl
  | cons x xs =>
    have hx : pyWs x = false := by simpa using h
    simp [List.dropWhile_cons, hx]

theorem pyStrip_eq_self (s : Str)
    (h1 : s.head?.all (fun c => !(pyWs c)) = true)
    (h2 : s.getLast?.all (fun c => !(pyWs c)) = true) : pyStrip s = s := by
  unfold pyStrip
  rw [dropWhile_eq_self_of_head s h1]
  rw [dropWhile_eq_self_of_head s.reverse (by rw [List.head?_reverse]; exact h2)]
  exact List.reverse_reverse s

theorem not_mem_versionEntryStr {c : Char} {vh : Str × Str} (hc : c ≠ ':')
    (h1 : c ∉ vh.1) (h2 : c ∉ vh.2) : c ∉ versionEntryStr vh := by
  unfold versionEntryStr
  intro hmem
  rcases List.mem_append.mp hmem with h | h
  · exact h1 h
  · rcases List.mem_cons.mp h with h | h
    · exact hc h
    · exact h2 h

theorem not_mem_joinWithChar {c sep : Char} (hc : c ≠ sep) :
    ∀ (xs : List Str), (∀ x ∈ xs, c ∉ x) → c ∉ joinWithChar sep xs := by
  intro xs
  induction xs with
  | nil => intro _; simp [joinWithChar]
  | cons x xs ih =>
    intro h
    cases xs with
    | nil => exact fun hm => h x (by simp) hm
    | cons y ys =>
      intro hmem
      have hmem2 : c ∈ x ++ sep :: joinWithChar sep (y :: ys) := hmem
      rcases List.mem_append.mp hmem2 with hm | hm
      · exact h x (by simp) hm
      · rcases List.mem_cons.mp hm with hm | hm
        · exact hc hm
        · exact ih (fun z hz => h z (by simp [hz])) hm

theorem splitOnChar_joinWithChar {c : Char} :
    ∀ (xs : List Str), xs ≠ [] → (∀ x ∈ xs, c ∉ x) →
      splitOnChar c (joinWithChar c xs) = xs := by
  intro xs
  induction xs with
  | nil => intro h _; exact absurd rfl h
  | cons x xs ih =>
    intro _ h
    cases xs with
    | nil => exact splitOnChar_not_mem (h x (by simp))
    | cons y ys =>
      have hx : c ∉ x := h x (by simp)
      have hj : joinWithChar c (x :: y :: ys) = x ++ c :: joinWithChar c (y :: ys) := rfl
      rw [hj, splitOnChar_append _ hx, ih (by simp) (fun z hz => h z (by simp [hz]))]

theorem takeWhile_append_first {c : Char} :
    ∀ (v : Str), c ∉ v → ∀ (h : Str),
      (v ++ c :: h).takeWhile (· != c) = v := by
  intro v
  induction v with
  | nil =>
    intro _ h
    simp [List.takeWhile_cons]
  | cons a as ih =>
    intro hv h
    have ha : (a != c) = true := by
      simp only [bne_iff_ne]
      exact fun he => hv (by simp [he])
    rw [List.cons_append, List.takeWhile_cons, ha]
    simp only [if_true]
    rw [ih (fun hm => hv (by simp [hm])) h]

theorem dropWhile_append_first {c : Char} :
    ∀ (v : Str), c ∉ v → ∀ (h : Str),
      (v ++ c :: h).dropWhile (· != c) = c :: h := by
  intro v
  induction v with
  | nil =>
    intro _ h
    simp [List.dropWhile_cons]
  | cons a as ih =>
    intro hv h
    have ha : (a != c) = true := by
      simp only [bne_iff_ne]
      exact fun he => hv (by simp [he])
    rw [List.cons_append, List.dropWhile_cons, ha]
    simp only [if_true]
    exact ih (fun hm => hv (by simp [hm])) h

theorem splitFirst_append {c : Char} {v : Str} (h : Str) (hv : c ∉ v) :
    splitFirst c (v ++ c :: h) = (v, h) := by
  unfold splitFirst
  rw [takeWhile_append_first v hv h, dropWhile_append_first v hv h]
  rfl

theorem lookup_eq_none_of_not_mem_keys {β : Type} {l : List (Str × β)} {k : Str}
    (h : k ∉ l.map Prod.fst) : List.lookup k l = none := by
  induction l with
  | nil => rfl
  | cons e l ih =>
    obtain ⟨a, b⟩ := e
    have hne : k ≠ a := fun he => h (by rw [List.map_cons, he]; exact List.mem_cons_self a _)
    have hka : (k == a) = false := beq_eq_false_iff_ne.mpr hne
    rw [List.lookup_cons, hka]
    exact ih (fun hm => h (by rw [List.map_cons]; exact List.mem_cons_of_mem _ hm))

theorem dictSet_fresh {β : Type} {d : List (Str × β)} {k : Str} (v : β)
    (h : k ∉ d.map Prod.fst) : dictSet d k v = d ++ [(k, v)] := by
  unfold dictSet
  rw [lookup_eq_none_of_not_mem_keys h]



theorem versionEntryStr_contains_colon (v hsh : Str) :
    (versionEntryStr (v, hsh)).contains ':' = true :=
  List.elem_iff.mpr
    (by unfold versionEntryStr
        exact List.mem_append.mpr (Or.inr (List.mem_cons_self _ _)))

theorem parseVersions_fold (vs : List (Str × Str)) :
    ∀ acc : List (Str × Str),
      (∀ vh ∈ vs, vh.1 ∉ acc.map Prod.fst) →
      (vs.map Prod.fst).Nodup →
      (∀ vh ∈ vs, ':' ∉ vh.1) →
      List.foldl
        (fun acc vh =>
          if vh.contains ':' then
            dictSet acc (splitFirst ':' vh).1 (splitFirst ':' vh).2
          else acc) acc (vs.map versionEntryStr) = acc ++ vs := by
  induction vs with
  | nil => intro acc _ _ _; simp
  | cons vh vs ih =>
    obtain ⟨v, hsh⟩ := vh
    intro acc hfresh hnodup hcolon
    rw [List.map_cons, List.foldl_cons]
    have hv : ':' ∉ v := hcolon (v, hsh) (List.mem_cons_self _ _)
    have hstep :
        (if (versionEntryStr (v, hsh)).contains ':' = true then
          dictSet acc (splitFirst ':' (versionEntryStr (v, hsh))).1
            (splitFirst ':' (versionEntryStr (v, hsh))).2
          else acc) = acc ++ [(v, hsh)] := by
      rw [versionEntryStr_contains_colon, if_pos rfl]
      have he : versionEntryStr (v, hsh) = v ++ ':' :: hsh := rfl
      rw [he, splitFirst_append hsh hv]
      exact dictSet_fresh hsh (hfresh (v, hsh) (List.mem_cons_self _ _))
    rw [hstep]
    have hnodup2 : (vs.map Prod.fst).Nodup := by
      rw [List.map_cons, List.nodup_cons] at hnodup
      exact hnodup.2
    have hvnotin : v ∉ vs.map Prod.fst := by
      rw [List.map_cons, List.nodup_cons] at hnodup
      exact hnodup.1
    have hfresh2 : ∀ vh2 ∈ vs, vh2.1 ∉ (acc ++ [(v, hsh)]).map Prod.fst := by
      intro vh2 hm hmem
      rw [List.map_append] at hmem
      rcases List.mem_append.mp hmem with h1 | h1
      · exact hfresh vh2 (List.mem_cons_of_mem _ hm) h1
      · simp at h1
        exact hvnotin (h1 ▸ List.mem_map.mpr ⟨vh2, hm, rfl⟩)
    rw [ih (acc ++ [(v, hsh)]) hfresh2 hnodup2
      (fun vh2 hm => hcolon vh2 (List.mem_cons_of_mem _ hm))]
    simp

theorem parseVersions_roundTrip (vs : List (Str × Str))
    (hnodup : (vs.map Prod.fst).Nodup)
    (hgood : ∀ vh ∈ vs, goodVersionEntry vh) :
    parseVersions (vs.map versionEntryStr) = vs := by
  unfold parseVersions
  have := parseVersions_fold vs [] (by simp) hnodup
    (fun vh hm => (hgood vh hm).1.2.2.2.2)
  simpa using this



theorem parseLine_good (acc : Index) (name : Str) (info : PkgInfo)
    (hgood : goodIndexEntry (name, info))
    (hfresh : name ∉ acc.map Prod.fst) :
    parseLine acc (indexLineBody name info) = acc ++ [(name, info)] := by
  obtain ⟨⟨hn1, hn2, hn2r, hn3, hn4⟩, ⟨hv1, hv2, hv3⟩, ⟨hd1, hd2, hd2r⟩,
    ⟨hp1, hp2, hp2r, hp3⟩⟩ := hgood
  have hvbar : '|' ∉ joinWithChar ',' (info.versions.map versionEntryStr) := by
    apply not_mem_joinWithChar (by decide)
    intro x hx
    rcases List.mem_map.mp hx with ⟨w, hw, rfl⟩
    exact not_mem_versionEntryStr (by decide) (hv3 w hw).1.1 (hv3 w hw).2.1
  have hhead : (indexLineBody name info).head?.all (fun c => !(pyWs c)) = true := by
    unfold indexLineBody
    cases name with
    | nil => rfl
    | cons a as => exact hn4
  have hlaststep : (indexLineBody name info).getLast? =
      ('|' :: info.provides).getLast? := by
    unfold indexLineBody
    rw [List.getLast?_append_of_ne_nil _ (by simp)]
    rw [show ('|' :: (joinWithChar ',' (info.versions.map versionEntryStr) ++
        '|' :: (info.deps ++ '|' :: info.provides))) =
        ('|' :: joinWithChar ',' (info.versions.map versionEntryStr)) ++
          '|' :: (info.deps ++ '|' :: info.provides) from by simp]
    rw [List.getLast?_append_of_ne_nil _ (by simp)]
    rw [show ('|' :: (info.deps ++ '|' :: info.provides)) =
        ('|' :: info.deps) ++ '|' :: info.provides from by simp]
    rw [List.getLast?_append_of_ne_nil _ (by simp)]
  have hlast : (indexLineBody name info).getLast?.all (fun c => !(pyWs c)) = true := by
    rw [hlaststep]
    cases hp : info.provides with
    | nil => rfl
    | cons p ps =>
      rw [show ('|' :: p :: ps) = ['|'] ++ (p :: ps) from rfl]
      rw [List.getLast?_append_of_ne_nil _ (by simp)]
      rw [← hp]
      exact hp3
  have hne : indexLineBody name info ≠ [] := by
    unfold indexLineBody
    cases name <;> simp
  have hhash : (indexLineBody name info).head? ≠ some '#' := by
    unfold indexLineBody
    cases name with
    | nil => simp
    | cons a as => exact hn3
  have hstrip : pyStrip (indexLineBody name info) = indexLineBody name info :=
    pyStrip_eq_self _ hhead hlast
  have hsplit : splitOnChar '|' (indexLineBody name info) =
      [name, joinWithChar ',' (info.versions.map versionEntryStr),
        info.deps, info.provides] := by
    unfold indexLineBody
    rw [splitOnChar_append _ hn1, splitOnChar_append _ hvbar,
      splitOnChar_append _ hd1, splitOnChar_not_mem hp1]
  have hcf : ∀ x ∈ info.versions.map versionEntryStr, ',' ∉ x := by
    intro x hx
    rcases List.mem_map.mp hx with ⟨w, hw, rfl⟩
    exact not_mem_versionEntryStr (by decide) (hv3 w hw).1.2.2.2.1
      (hv3 w hw).2.2.2.2
  have hene : info.versions.map versionEntryStr ≠ [] := by
    simpa using hv1
  simp only [parseLine]
  rw [hstrip]
  rw [if_neg hne, if_neg hhash, hsplit]
  rw [if_neg (by simp)]
  simp only [List.getD_cons_zero, List.getD_cons_succ]
  rw [splitOnChar_joinWithChar _ hene hcf]
  rw [parseVersions_roundTrip info.versions hv2 hv3]
  rw [dictSet_fresh _ hfresh]



theorem parseLine_nil (d : Index) : parseLine d [] = d := rfl

theorem char_not_mem_indexLineBody {c : Char} {name : Str} {info : PkgInfo}
    (hc1 : c ≠ '|') (hc2 : c ≠ ':') (hc3 : c ≠ ',')
    (hname : c ∉ name)
    (hv : ∀ vh ∈ info.versions, c ∉ vh.1 ∧ c ∉ vh.2)
    (hdeps : c ∉ info.deps) (hprov : c ∉ info.provides) :
    c ∉ indexLineBody name info := by
  unfold indexLineBody
  intro hm
  rcases List.mem_append.mp hm with h1 | h1
  · exact hname h1
  · rcases List.mem_cons.mp h1 with h1 | h1
    · exact hc1 h1
    · rcases List.mem_append.mp h1 with h2 | h2
      · exact not_mem_joinWithChar hc3 _ (fun x hx => by
          rcases List.mem_map.mp hx with ⟨w, hw, rfl⟩
          exact not_mem_versionEntryStr hc2 (hv w hw).1 (hv w hw).2) h2
      · rcases List.mem_cons.mp h2 with h2 | h2
        · exact hc1 h2
        · rcases List.mem_append.mp h2 with h3 | h3
          · exact hdeps h3
          · rcases List.mem_cons.mp h3 with h3 | h3
            · exact hc1 h3
            · exact hprov h3

theorem univNewlines_eq_self : ∀ (s : Str), '\x0d' ∉ s → univNewlines s = s := by
  intro s
  induction s with
  | nil => intro _; rfl
  | cons c rest ih =>
    intro h
    have hc : c ≠ '\x0d' := fun he => h (by simp [he])
    have hrest : '\x0d' ∉ rest := fun hm => h (by simp [hm])
    rw [univNewlines.eq_def]
    split
    · next heq => exact absurd heq (by simp)
    · next r heq =>
      exfalso
      injection heq with h1 _
      exact hc h1
    · next r hnot heq =>
      exfalso
      injection heq with h1 _
      exact hc h1
    · next c2 r hnot1 hnot2 heq =>
      injection heq with h1 h2
      subst h1
      subst h2
      rw [ih hrest]

theorem parse_fold_good (data : Index) :
    ∀ acc : Index,
      (data.map Prod.fst).Nodup →
      (∀ e ∈ data, goodIndexEntry e) →
      (∀ e ∈ data, e.1 ∉ acc.map Prod.fst) →
      (data.map (fun e => indexLineBody e.1 e.2)).foldl parseLine acc =
        acc ++ data := by
  induction data with
  | nil => intro acc _ _ _; simp
  | cons e rest ih =>
    obtain ⟨name, info⟩ := e
    intro acc hnodup hgood hfresh
    rw [List.map_cons, List.foldl_cons]
    rw [parseLine_good acc name info (hgood _ (List.mem_cons_self _ _))
      (hfresh _ (List.mem_cons_self _ _))]
    have hnodup2 : (rest.map Prod.fst).Nodup := by
      rw [List.map_cons, List.nodup_cons] at hnodup
      exact hnodup.2
    have hnameout : name ∉ rest.map (Prod.fst) := by
      rw [List.map_cons, List.nodup_cons] at hnodup
      exact hnodup.1
    have hfresh2 : ∀ e2 ∈ rest, e2.1 ∉ (acc ++ [(name, info)]).map Prod.fst := by
      intro e2 hm hmem
      rw [List.map_append] at hmem
      rcases List.mem_append.mp hmem with h1 | h1
      · exact hfresh e2 (List.mem_cons_of_mem _ hm) h1
      · simp at h1
        exact hnameout (h1 ▸ List.mem_map.mpr ⟨e2, hm, rfl⟩)
    rw [ih (acc ++ [(name, info)]) hnodup2
      (fun e2 hm => hgood e2 (List.mem_cons_of_mem _ hm)) hfresh2]
    simp


/-! ## C10 -/

/-- C10 counterexample: an index satisfying every condition the claim
states (at least one version; no pipe anywhere; no comma in versions or
hashes; no colon in versions; no leading hash mark) whose deps string
contains a newline does not survive the round trip: the newline breaks the
written line in two, and parsing yields a spurious second package. -/
theorem aggregated_index_round_trip_counterexample :
    claimedRoundTripOk newlineIdx = true ∧
    parse_aggregated_index (write_aggregated_index newlineIdx) ≠ newlineIdx := by
  constructor
  · decide
  · decide

/-- C10 (amended): writing an aggregated index and parsing it back is the
identity provided that, in addition to the claim's conditions (at least one
version per package; no pipe in any field; no comma in versions or hashes;
no colon in versions; no leading hash mark on names), package and version
keys are distinct, no field contains a newline or carriage return (the
text-mode read breaks lines at both), names do not begin with Python
whitespace, and provides strings do not end with Python whitespace. -/
theorem aggregated_index_round_trip (data : Index)
    (hkeys : (data.map Prod.fst).Nodup)
    (hgood : ∀ e ∈ data, goodIndexEntry e) :
    parse_aggregated_index (write_aggregated_index data) = data := by
  unfold parse_aggregated_index write_aggregated_index
  have hw : (data.map (fun e => indexLine e.1 e.2)).flatten =
      ((data.map (fun e => indexLineBody e.1 e.2)).map
        (fun l => l ++ ['\n'])).flatten := by
    rw [List.map_map]
    congr 1
    apply List.map_congr_left
    intro e _
    show indexLine e.1 e.2 = indexLineBody e.1 e.2 ++ ['\n']
    unfold indexLine indexLineBody
    simp [List.append_assoc]
  rw [hw]
  have hcrBody : ∀ e ∈ data, '\x0d' ∉ indexLineBody e.1 e.2 := by
    intro e he
    obtain ⟨⟨_, _, hn2r, _, _⟩, ⟨_, _, hv3⟩, ⟨_, _, hd2r⟩, ⟨_, _, hp2r, _⟩⟩ :=
      hgood e he
    exact char_not_mem_indexLineBody (by decide) (by decide) (by decide) hn2r
      (fun vh hm => ⟨(hv3 vh hm).1.2.2.1, (hv3 vh hm).2.2.2.1⟩) hd2r hp2r
  have hcrAll : '\x0d' ∉
      ((data.map (fun e => indexLineBody e.1 e.2)).map
        (fun l => l ++ ['\n'])).flatten := by
    intro hm
    rcases List.mem_flatten.mp hm with ⟨l, hl, hml⟩
    rcases List.mem_map.mp hl with ⟨body, hbody, rfl⟩
    rcases List.mem_append.mp hml with h1 | h1
    · rcases List.mem_map.mp hbody with ⟨e, he, rfl⟩
      exact hcrBody e he h1
    · rcases List.mem_cons.mp h1 with h1 | h1
      · exact absurd h1 (by decide)
      · simp at h1
  rw [univNewlines_eq_self _ hcrAll]
  rw [splitOnChar_flatten_lines _ (fun l hl => by
    rcases List.mem_map.mp hl with ⟨e, he, rfl⟩
    obtain ⟨⟨_, hn2, _, _, _⟩, ⟨_, _, hv3⟩, ⟨_, hd2, _⟩, ⟨_, hp2, _, _⟩⟩ :=
      hgood e he
    exact char_not_mem_indexLineBody (by decide) (by decide) (by decide) hn2
      (fun vh hm => ⟨(hv3 vh hm).1.2.1, (hv3 vh hm).2.2.1⟩) hd2 hp2)]
  rw [List.foldl_append]
  rw [parse_fold_good data [] hkeys hgood (by simp)]
  simp [parseLine_nil]

/-- Witness for C10's amended statement: a concrete well-formed one-package
index survives the round trip. -/
theorem aggregated_index_round_trip_witness :
    parse_aggregated_index (write_aggregated_index goodIdx) = goodIdx :=
  aggregated_index_round_trip goodIdx (by decide)
    (by intro e he
        unfold goodIdx at he
        rw [List.mem_singleton] at he
        subst he
        refine ⟨⟨?_, ?_, ?_, ?_, ?_⟩, ⟨?_, ?_, ?_⟩, ⟨?_, ?_, ?_⟩,
          ⟨?_, ?_, ?_, ?_⟩⟩ <;> decide)


end LankeOS
